import Mathlib

/-!
Verification development for the vegamdb indexing core.

The repository ships the Python test-suite, benchmarks and HTTP wrapper of a
vector database whose native core (vector store, Flat / IVF / Annoy indexes and
the persistence codec) is not part of the checked-in sources.  The core is
therefore modelled here from the specification: vectors are rational-valued
lists (standing for the `f32` rows of the store), machine-width fields of the
persistence format carry naturals reduced modulo their width, and fallible
operations return `Except`.
-/

/-- Modelled from the spec: a stored vector, a row of `f32` values (§3),
represented as a list of rationals. -/
abbrev Vec := List ℚ

/-- Modelled from the spec: the distance kernel (§4.2),
`sqdist(a, b) := Σᵢ (aᵢ − bᵢ)²`, squared Euclidean distance with no `sqrt`. -/
def sqdist (a b : Vec) : ℚ :=
  (List.zipWith (fun x y => (x - y) ^ 2) a b).sum

/-- Modelled from the spec: the dot product used by Annoy split hyperplanes
(§4.6). -/
def dot (a b : Vec) : ℚ :=
  (List.zipWith (· * ·) a b).sum

/-- Modelled from the spec: `SearchResult` carries parallel sequences `ids` and
`distances` (§6). -/
structure SearchResult where
  ids : List ℕ
  distances : List ℚ
deriving DecidableEq, Repr

/-- Result ordering (§4.4, §5): `(distance ascending, id ascending)`, the
lower-ID tie-break fixed by §9. -/
def PairLE (a b : ℕ × ℚ) : Prop :=
  a.2 < b.2 ∨ (a.2 = b.2 ∧ a.1 ≤ b.1)

instance : DecidableRel PairLE := fun a b => by
  unfold PairLE; infer_instance

instance : IsTotal (ℕ × ℚ) PairLE where
  total a b := by
    unfold PairLE
    rcases lt_trichotomy a.2 b.2 with h | h | h
    · exact Or.inl (Or.inl h)
    · rcases Nat.le_total a.1 b.1 with h' | h'
      · exact Or.inl (Or.inr ⟨h, h'⟩)
      · exact Or.inr (Or.inr ⟨h.symm, h'⟩)
    · exact Or.inr (Or.inl h)

instance : IsTrans (ℕ × ℚ) PairLE where
  trans a b c hab hbc := by
    unfold PairLE at *
    rcases hab with h1 | ⟨e1, le1⟩
    · rcases hbc with h2 | ⟨e2, _⟩
      · exact Or.inl (h1.trans h2)
      · exact Or.inl (e2 ▸ h1)
    · rcases hbc with h2 | ⟨e2, le2⟩
      · exact Or.inl (e1 ▸ h2)
      · exact Or.inr ⟨e1.trans e2, le1.trans le2⟩

/-- Modelled from the spec: IVF configuration set by `use_ivf_index` (§4.7,
§6). -/
structure IVFConfig where
  n_clusters : ℕ
  max_iters : ℕ
  n_probe : ℕ
deriving DecidableEq, Repr

/-- Modelled from the spec: the trained IVF structure, a centroid set together
with one inverted list of store IDs per centroid (§3). -/
structure IVFStruct where
  centroids : List Vec
  lists : List (List ℕ)
deriving DecidableEq, Repr

/-- Modelled from the spec: Annoy configuration set by `use_annoy_index` (§4.7,
§6). -/
structure AnnoyConfig where
  num_trees : ℕ
  k_leaf : ℕ
  use_priority_queue : Bool
deriving DecidableEq, Repr

/-- Modelled from the spec: an Annoy tree, interior nodes carrying a split
hyperplane `(normal, offset)` and leaves carrying a bag of store IDs (§3). -/
inductive AnnoyTree where
  | leaf (ids : List ℕ)
  | inner (normal : Vec) (off : ℚ) (l r : AnnoyTree)
deriving DecidableEq, Repr

/-- Modelled from the spec: the active index is a tagged variant with exactly
one of the states `{None, Flat, IVF, Annoy}` (§3); for IVF and Annoy the
trained structure is present only once `build_index` has run (§4.7). -/
inductive ActiveIndex where
  | noneIdx
  | flat
  | ivf (cfg : IVFConfig) (s : Option IVFStruct)
  | annoy (cfg : AnnoyConfig) (ts : Option (List AnnoyTree))
deriving DecidableEq, Repr

/-- Modelled from the spec: the database value, a vector store (dimension plus
row-major matrix, §3) together with the dispatcher's active index (§4.7). -/
structure DB where
  dim : ℕ
  store : List Vec
  active : ActiveIndex
deriving DecidableEq, Repr

/-- Modelled from the spec: `size()` is the number of stored vectors (§4.1). -/
def DB.size (db : DB) : ℕ := db.store.length

/-- Modelled from the spec: `dimension()` returns the established `D`, `0` when
empty (§4.1). -/
def DB.dimension (db : DB) : ℕ := db.dim

/-- Modelled from the spec: `new() -> DB` (§6), an empty store with no active
index. -/
def emptyDB : DB := ⟨0, [], .noneIdx⟩

/-- Modelled from the spec: the error taxonomy of §7. -/
inductive VErr where
  | dimensionMismatch
  | invalidShape
  | insufficientData
  | paramsKindMismatch
  | corruptIndex
deriving DecidableEq, Repr

/-- Modelled from the spec: `add(vec)` appends and returns the new ID; the
first insertion fixes `D`, later vectors must have length `D` or the call
fails with `DimensionMismatch` (§3, §4.1). -/
def addVector (db : DB) (v : Vec) : Except VErr (DB × ℕ) :=
  if db.store.isEmpty then
    .ok ({ db with dim := v.length, store := [v] }, 0)
  else if v.length = db.dim then
    .ok ({ db with store := db.store ++ [v] }, db.store.length)
  else
    .error .dimensionMismatch

/-- State left by `add_vector`: the new database on success, the old one
untouched on error (§7: partial mutations are never observable). -/
def addVectorState (db : DB) (v : Vec) : DB :=
  match addVector db v with
  | .ok (db', _) => db'
  | .error _ => db

/-- Modelled from the spec: a host-language array handed to the batch-add
front door, tagged with its number of dimensions; the spec accepts 1-D and 2-D
arrays and rejects anything else with `InvalidShape` (§6, §7). -/
inductive NPArray where
  | d1 (v : Vec)
  | d2 (rows : List Vec)
  | d3 (cube : List (List Vec))
deriving DecidableEq, Repr

/-- Rows contributed by an array: a 1-D array is one row, a 2-D array is its
row list, a 3-D array contributes none (rejected). -/
def npRows : NPArray → Option (List Vec)
  | .d1 v => some [v]
  | .d2 rows => some rows
  | .d3 _ => none

/-- Dimension a batch is validated against: the established `D`, or the first
row's length when the store is still empty (§3: `D` fixed by first insertion). -/
def batchDim (db : DB) (rows : List Vec) : ℕ :=
  if db.store.isEmpty then rows.headI.length else db.dim

/-- Modelled from the spec: `add_batch(rows)` appends each row, dimension-
validated before any append so an error aborts before the first append
(§4.1, §7). Returns the consecutively assigned IDs. -/
def addBatch (db : DB) (rows : List Vec) : Except VErr (DB × List ℕ) :=
  if rows.isEmpty then
    .ok (db, [])
  else if rows.all (fun r => r.length = batchDim db rows) then
    .ok ({ db with dim := batchDim db rows, store := db.store ++ rows },
         List.range' db.store.length rows.length)
  else
    .error .dimensionMismatch

/-- Modelled from the spec: `add_vector_batch` / `add_vector_numpy` accepts 1-D
or 2-D input and fails with `InvalidShape` on anything else (§6, §7). -/
def addVectorNumpy (db : DB) (a : NPArray) : Except VErr (DB × List ℕ) :=
  match npRows a with
  | none => .error .invalidShape
  | some rows => addBatch db rows

/-- State left by `add_vector_numpy`: the new database on success, the old one
untouched on error (§7). -/
def addVectorNumpyState (db : DB) (a : NPArray) : DB :=
  match addVectorNumpy db a with
  | .ok (db', _) => db'
  | .error _ => db

/-- Concatenation of a list of lists (used for flattening candidate lists and
inverted lists). -/
def catLists {α : Type} : List (List α) → List α
  | [] => []
  | xs :: r => xs ++ catLists r

/-- Row of the store for a given ID (empty vector when out of range). -/
def rowOf (db : DB) (i : ℕ) : Vec := db.store.getD i []

/-- Candidate reranking shared by every index (§4.4–§4.6): deduplicate the
candidate IDs, pair each with its exact squared distance to the query, sort
ascending by `(distance, id)` and keep the first `k` pairs. -/
def rankPairs (db : DB) (q : Vec) (cands : List ℕ) : List (ℕ × ℚ) :=
  List.insertionSort PairLE (cands.dedup.map (fun i => (i, sqdist q (rowOf db i))))

/-- Top-`k` result assembled from the reranked candidates. -/
def rerank (db : DB) (q : Vec) (k : ℕ) (cands : List ℕ) : SearchResult :=
  let top := (rankPairs db q cands).take k
  ⟨top.map Prod.fst, top.map Prod.snd⟩

/-- Modelled from the spec: the Flat index, exact top-`k` by scanning every
stored row (§4.4). -/
def flatSearch (db : DB) (q : Vec) (k : ℕ) : SearchResult :=
  rerank db q k (List.range db.store.length)

/-- Modelled from the spec: `n_probe` is clamped to `[1, n_clusters]` (§4.5). -/
def clampProbe (nClusters p : ℕ) : ℕ := min (max p 1) nClusters

/-- Centroid indices ordered by ascending distance of the query to the
centroid (§4.5 step 1), ties broken towards the lower index. -/
def centroidOrder (s : IVFStruct) (q : Vec) : List ℕ :=
  (List.insertionSort PairLE
    ((List.range s.centroids.length).map
      (fun c => (c, sqdist q (s.centroids.getD c []))))).map Prod.fst

/-- Modelled from the spec: the candidate IDs an IVF search scans, the union of
the inverted lists of the `n_probe` closest centroids (§4.5 step 2). -/
def ivfCandidates (s : IVFStruct) (q : Vec) (p : ℕ) : List ℕ :=
  catLists (((centroidOrder s q).take (clampProbe s.centroids.length p)).map
    (fun c => s.lists.getD c []))

/-- Modelled from the spec: IVF `search(query, k, n_probe)` (§4.5). -/
def ivfSearch (db : DB) (s : IVFStruct) (q : Vec) (k p : ℕ) : SearchResult :=
  rerank db q k (ivfCandidates s q p)

/-- IDs carried by the leaves of an Annoy tree. -/
def leafIds : AnnoyTree → List ℕ
  | .leaf ids => ids
  | .inner _ _ l r => leafIds l ++ leafIds r

/-- Node count of an Annoy tree, the fuel bound for the best-first loop. -/
def treeSize : AnnoyTree → ℕ
  | .leaf _ => 1
  | .inner _ _ l r => 1 + treeSize l + treeSize r

/-- Modelled from the spec: greedy descent to a single leaf by the sign of the
split at each interior node (§4.6); the build sends negative-margin points
left and ties right, and the descent follows the same rule. -/
def descend (q : Vec) : AnnoyTree → List ℕ
  | .leaf ids => ids
  | .inner n off l r => if dot n q - off < 0 then descend q l else descend q r

/-- Modelled from the spec: the greedy strategy's candidate set, the union of
the leaves reached in every tree of the forest (§4.6). -/
def greedyCandidates (ts : List AnnoyTree) (q : Vec) : List ℕ :=
  catLists (ts.map (descend q))

/-- Pop the entry with the smallest key from the pending queue (leftmost on
ties, keeping the traversal deterministic, §4.6). -/
def popMinEntry : List (ℚ × AnnoyTree) → Option ((ℚ × AnnoyTree) × List (ℚ × AnnoyTree))
  | [] => none
  | e :: rest =>
    match popMinEntry rest with
    | none => some (e, [])
    | some (m, others) =>
      if e.1 ≤ m.1 then some (e, rest) else some (m, e :: others)

/-- Modelled from the spec: one best-first expansion loop over all trees
simultaneously, keyed by the absolute margin `|dot(normal, q) − offset|` of
the split, expanding the most ambiguous (smallest absolute margin) node first
and descending into both children, the near side queued ahead of the far side
(§4.6). The fuel argument bounds the number of pops. -/
def pqLoop (q : Vec) : ℕ → List (ℚ × AnnoyTree) → List ℕ
  | 0, _ => []
  | fuel + 1, queue =>
    match popMinEntry queue with
    | none => []
    | some ((_, .leaf ids), rest) => ids ++ pqLoop q fuel rest
    | some ((_, .inner n off l r), rest) =>
      let m := dot n q - off
      let near := if m < 0 then l else r
      let far := if m < 0 then r else l
      pqLoop q fuel ((|m|, near) :: (|m|, far) :: rest)

/-- Total node count of a forest. -/
def forestSize (ts : List AnnoyTree) : ℕ := (ts.map treeSize).sum

/-- Modelled from the spec: the full best-first visit order of candidate IDs;
the `search_k` budget only truncates this stream (§4.6: stop once the number
of candidates visited reaches `search_k`). -/
def expandOrder (ts : List AnnoyTree) (q : Vec) : List ℕ :=
  pqLoop q (forestSize ts) (ts.map (fun t => ((0 : ℚ), t)))

/-- Modelled from the spec: candidates visited by the priority-queue strategy
under a `search_k` budget (§4.6). -/
def pqCandidates (ts : List AnnoyTree) (q : Vec) (searchK : ℕ) : List ℕ :=
  (expandOrder ts q).take searchK

/-- Modelled from the spec: the default `search_k` budget
`num_trees × k × 10` (§4.6). -/
def defaultSearchK (cfg : AnnoyConfig) (k : ℕ) : ℕ :=
  cfg.num_trees * k * 10

/-- Modelled from the spec: Annoy search with its two strategies, the per-query
params overriding the constructor-time strategy flag (§4.6, §4.7). -/
def annoySearch (db : DB) (cfg : AnnoyConfig) (ts : List AnnoyTree) (q : Vec)
    (k : ℕ) (searchK : Option ℕ) (upq : Option Bool) : SearchResult :=
  if upq.getD cfg.use_priority_queue then
    rerank db q k (pqCandidates ts q (searchK.getD (defaultSearchK cfg k)))
  else
    rerank db q k (greedyCandidates ts q)

/-- Modelled from the spec: `SearchParams`, a tagged union of IVF and Annoy
per-query parameters (§6). -/
inductive SearchParams where
  | ivfP (n_probe : Option ℕ)
  | annoyP (search_k : Option ℕ) (upq : Option Bool)
deriving DecidableEq, Repr

/-- Modelled from the spec: the index dispatcher's `search` (§4.7): `None`
means Flat; a params variant of the wrong kind fails with
`ParamsKindMismatch` (§6); an IVF or Annoy index that is not yet built falls
back to Flat results (§4.7, §7). -/
def search (db : DB) (q : Vec) (k : ℕ) (params : Option SearchParams) :
    Except VErr SearchResult :=
  match db.active, params with
  | .noneIdx, none => .ok (flatSearch db q k)
  | .noneIdx, some _ => .error .paramsKindMismatch
  | .flat, none => .ok (flatSearch db q k)
  | .flat, some _ => .error .paramsKindMismatch
  | .ivf cfg os, none =>
    .ok (match os with
      | none => flatSearch db q k
      | some s => ivfSearch db s q k cfg.n_probe)
  | .ivf cfg os, some (.ivfP p) =>
    .ok (match os with
      | none => flatSearch db q k
      | some s => ivfSearch db s q k (p.getD cfg.n_probe))
  | .ivf _ _, some (.annoyP _ _) => .error .paramsKindMismatch
  | .annoy cfg os, none =>
    .ok (match os with
      | none => flatSearch db q k
      | some ts => annoySearch db cfg ts q k none none)
  | .annoy cfg os, some (.annoyP sk upq) =>
    .ok (match os with
      | none => flatSearch db q k
      | some ts => annoySearch db cfg ts q k sk upq)
  | .annoy _ _, some (.ivfP _) => .error .paramsKindMismatch

/-- Validity of the IDs an active index holds: every ID referenced by an
inverted list or a tree leaf is a real store ID (§3: index structures hold raw
IDs as stable references into the store). -/
def idxOK (n : ℕ) : ActiveIndex → Prop
  | .ivf _ (some s) => ∀ l ∈ s.lists, ∀ i ∈ l, i < n
  | .annoy _ (some ts) => ∀ t ∈ ts, ∀ i ∈ leafIds t, i < n
  | _ => True

instance (n : ℕ) : (a : ActiveIndex) → Decidable (idxOK n a)
  | .noneIdx => isTrue True.intro
  | .flat => isTrue True.intro
  | .ivf _ none => isTrue True.intro
  | .ivf _ (some s) => inferInstanceAs (Decidable (∀ l ∈ s.lists, ∀ i ∈ l, i < n))
  | .annoy _ none => isTrue True.intro
  | .annoy _ (some ts) =>
    inferInstanceAs (Decidable (∀ t ∈ ts, ∀ i ∈ leafIds t, i < n))

/-- Store invariants of §3: rows are dimension-homogeneous and the dimension is
`0` while the store is empty. -/
def storeWF (db : DB) : Prop :=
  (∀ r ∈ db.store, r.length = db.dim) ∧ (db.store = [] → db.dim = 0)

instance (db : DB) : Decidable (storeWF db) :=
  inferInstanceAs (Decidable (_ ∧ _))

/-- Well-formed database: store invariants plus ID validity of the active
index structures. -/
def dbWF (db : DB) : Prop :=
  storeWF db ∧ idxOK db.store.length db.active

instance (db : DB) : Decidable (dbWF db) :=
  inferInstanceAs (Decidable (storeWF db ∧ idxOK db.store.length db.active))

/-- An active index that is Flat, or a built IVF or Annoy index (the states
claim C6 quantifies over). -/
def builtActive : ActiveIndex → Prop
  | .flat => True
  | .ivf _ (some _) => True
  | .annoy _ (some _) => True
  | _ => False

instance : (a : ActiveIndex) → Decidable (builtActive a)
  | .noneIdx => isFalse (fun h => h)
  | .flat => isTrue True.intro
  | .ivf _ none => isFalse (fun h => h)
  | .ivf _ (some _) => isTrue True.intro
  | .annoy _ none => isFalse (fun h => h)
  | .annoy _ (some _) => isTrue True.intro

/-- Field-width and shape side conditions under which the persistence format
represents an Annoy tree exactly (§4.8). -/
def treeWF (d : ℕ) : AnnoyTree → Prop
  | .leaf ids => ids.length < 2 ^ 32 ∧ ∀ i ∈ ids, i < 2 ^ 32
  | .inner nr _ l r => nr.length = d ∧ treeWF d l ∧ treeWF d r

instance (d : ℕ) : (t : AnnoyTree) → Decidable (treeWF d t)
  | .leaf ids =>
    inferInstanceAs (Decidable (ids.length < 2 ^ 32 ∧ ∀ i ∈ ids, i < 2 ^ 32))
  | .inner nr _ l r =>
    letI := instDecidableTreeWF d l
    letI := instDecidableTreeWF d r
    inferInstanceAs (Decidable (nr.length = d ∧ treeWF d l ∧ treeWF d r))

/-- Field-width and shape side conditions under which the persistence format
represents the active index exactly (§3 invariants plus §4.8 field widths). -/
def bodyWF (d : ℕ) : ActiveIndex → Prop
  | .ivf cfg (some s) =>
    cfg.n_clusters < 2 ^ 32 ∧ cfg.max_iters < 2 ^ 32 ∧ cfg.n_probe < 2 ^ 32 ∧
    s.centroids.length = cfg.n_clusters ∧ s.lists.length = cfg.n_clusters ∧
    (∀ c ∈ s.centroids, c.length = d) ∧
    (∀ l ∈ s.lists, l.length < 2 ^ 32 ∧ ∀ i ∈ l, i < 2 ^ 32)
  | .annoy cfg (some ts) =>
    cfg.num_trees < 2 ^ 32 ∧ cfg.k_leaf < 2 ^ 32 ∧ ts.length = cfg.num_trees ∧
    ∀ t ∈ ts, treeWF d t
  | _ => True

instance (d : ℕ) : (a : ActiveIndex) → Decidable (bodyWF d a)
  | .noneIdx => isTrue True.intro
  | .flat => isTrue True.intro
  | .ivf _ none => isTrue True.intro
  | .ivf cfg (some s) =>
    inferInstanceAs (Decidable (cfg.n_clusters < 2 ^ 32 ∧ cfg.max_iters < 2 ^ 32 ∧
      cfg.n_probe < 2 ^ 32 ∧ s.centroids.length = cfg.n_clusters ∧
      s.lists.length = cfg.n_clusters ∧ (∀ c ∈ s.centroids, c.length = d) ∧
      (∀ l ∈ s.lists, l.length < 2 ^ 32 ∧ ∀ i ∈ l, i < 2 ^ 32)))
  | .annoy _ none => isTrue True.intro
  | .annoy cfg (some ts) =>
    inferInstanceAs (Decidable (cfg.num_trees < 2 ^ 32 ∧ cfg.k_leaf < 2 ^ 32 ∧
      ts.length = cfg.num_trees ∧ ∀ t ∈ ts, treeWF d t))

/-- Field-width and shape side conditions under which the persistence format
represents the whole database exactly. -/
def serialWF (db : DB) : Prop :=
  db.dim < 2 ^ 32 ∧ db.store.length < 2 ^ 64 ∧
  (∀ r ∈ db.store, r.length = db.dim) ∧ bodyWF db.dim db.active

instance (db : DB) : Decidable (serialWF db) :=
  inferInstanceAs (Decidable (_ ∧ _ ∧ _ ∧ _))

/-- Modelled from the spec: one field of the binary persistence format (§4.8),
at token granularity: fixed-width little-endian integer fields (reduced to
their width), an `f32` payload, and the 4-byte magic. -/
inductive Tok where
  | u8 (n : ℕ)
  | u32 (n : ℕ)
  | u64 (n : ℕ)
  | f32 (x : ℚ)
  | magic
deriving DecidableEq, Repr

/-- A `u32` field, reduced to 32 bits. -/
def w32 (n : ℕ) : Tok := .u32 (n % 2 ^ 32)

/-- Serialized row: `dim` consecutive `f32` fields (§4.8). -/
def serVec (v : Vec) : List Tok := v.map Tok.f32

/-- Serialized row-major matrix (§4.8 `data`, also the IVF centroid block). -/
def serRows : List Vec → List Tok
  | [] => []
  | v :: r => serVec v ++ serRows r

/-- Serialized ID list: `len: u32` followed by `len` `u32` IDs (§4.8). -/
def serIds (l : List ℕ) : List Tok := w32 l.length :: l.map w32

/-- Serialized inverted lists, one after the other (§4.8 IVF body). -/
def serLists : List (List ℕ) → List Tok
  | [] => []
  | l :: r => serIds l ++ serLists r

/-- Serialized Annoy tree, a pre-order stream of tagged nodes (§4.8): tag `0`
then a leaf's ID list, or tag `1` then `normal`, `offset`, left, right. -/
def serTree : AnnoyTree → List Tok
  | .leaf ids => Tok.u8 0 :: serIds ids
  | .inner n off l r =>
    Tok.u8 1 :: (serVec n ++ [Tok.f32 off] ++ serTree l ++ serTree r)

/-- Serialized forest, each tree's stream in order (§4.8 Annoy body). -/
def serTrees : List AnnoyTree → List Tok
  | [] => []
  | t :: r => serTree t ++ serTrees r

/-- Modelled from the spec: the `kind` byte, `0=Flat 1=IVF 2=Annoy` (§4.8);
`None` and a not-yet-built index persist as Flat, which carries no body. -/
def kindOf : ActiveIndex → ℕ
  | .ivf _ (some _) => 1
  | .annoy _ (some _) => 2
  | _ => 0

/-- Modelled from the spec: the kind-specific body (§4.8). -/
def serBody : ActiveIndex → List Tok
  | .ivf cfg (some s) =>
    [w32 cfg.n_clusters, w32 cfg.max_iters, w32 cfg.n_probe] ++
      serRows s.centroids ++ serLists s.lists
  | .annoy cfg (some ts) =>
    [w32 cfg.num_trees, w32 cfg.k_leaf,
     Tok.u8 (if cfg.use_priority_queue then 1 else 0)] ++ serTrees ts
  | _ => []

/-- Modelled from the spec: `save` emits magic, `version = 1`, `dim`, `count`,
the row-major data, the kind byte and the kind-specific body (§4.8). -/
def save (db : DB) : List Tok :=
  Tok.magic :: Tok.u32 1 :: w32 db.dim :: Tok.u64 (db.store.length % 2 ^ 64) ::
    (serRows db.store ++ (Tok.u8 (kindOf db.active) :: serBody db.active))

/-- Read one `u8` field. -/
def rdU8 : List Tok → Option (ℕ × List Tok)
  | Tok.u8 n :: r => some (n, r)
  | _ => none

/-- Read one `u32` field. -/
def rdU32 : List Tok → Option (ℕ × List Tok)
  | Tok.u32 n :: r => some (n, r)
  | _ => none

/-- Read one `u64` field. -/
def rdU64 : List Tok → Option (ℕ × List Tok)
  | Tok.u64 n :: r => some (n, r)
  | _ => none

/-- Read one `f32` field. -/
def rdF32 : List Tok → Option (ℚ × List Tok)
  | Tok.f32 x :: r => some (x, r)
  | _ => none

/-- Read a row of `d` `f32` fields. -/
def rdVec : ℕ → List Tok → Option (Vec × List Tok)
  | 0, ts => some ([], ts)
  | n + 1, ts =>
    match rdF32 ts with
    | none => none
    | some (x, ts1) =>
      match rdVec n ts1 with
      | none => none
      | some (v, ts2) => some (x :: v, ts2)

/-- Read `c` rows of `d` `f32` fields each. -/
def rdRows : ℕ → ℕ → List Tok → Option (List Vec × List Tok)
  | 0, _, ts => some ([], ts)
  | c + 1, d, ts =>
    match rdVec d ts with
    | none => none
    | some (v, ts1) =>
      match rdRows c d ts1 with
      | none => none
      | some (vs, ts2) => some (v :: vs, ts2)

/-- Read `c` `u32` IDs. -/
def rdNats : ℕ → List Tok → Option (List ℕ × List Tok)
  | 0, ts => some ([], ts)
  | c + 1, ts =>
    match rdU32 ts with
    | none => none
    | some (i, ts1) =>
      match rdNats c ts1 with
      | none => none
      | some (l, ts2) => some (i :: l, ts2)

/-- Read a length-tagged ID list (§4.8). -/
def rdIds (ts : List Tok) : Option (List ℕ × List Tok) :=
  match rdU32 ts with
  | none => none
  | some (n, ts1) => rdNats n ts1

/-- Read `c` length-tagged ID lists (§4.8 IVF inverted lists). -/
def rdLists : ℕ → List Tok → Option (List (List ℕ) × List Tok)
  | 0, ts => some ([], ts)
  | c + 1, ts =>
    match rdIds ts with
    | none => none
    | some (l, ts1) =>
      match rdLists c ts1 with
      | none => none
      | some (ls, ts2) => some (l :: ls, ts2)

/-- Read one Annoy tree from its pre-order stream (§4.8); the fuel bounds the
recursion depth and only ever needs the length of the remaining stream. -/
def rdTree (d : ℕ) : ℕ → List Tok → Option (AnnoyTree × List Tok)
  | 0, _ => none
  | fuel + 1, ts =>
    match rdU8 ts with
    | some (0, ts1) =>
      (match rdIds ts1 with
       | none => none
       | some (ids, ts2) => some (.leaf ids, ts2))
    | some (1, ts1) =>
      (match rdVec d ts1 with
       | none => none
       | some (n, ts2) =>
         match rdF32 ts2 with
         | none => none
         | some (off, ts3) =>
           match rdTree d fuel ts3 with
           | none => none
           | some (l, ts4) =>
             match rdTree d fuel ts4 with
             | none => none
             | some (r, ts5) => some (.inner n off l r, ts5))
    | _ => none

/-- Read `c` Annoy trees (§4.8 Annoy body). -/
def rdTrees (d : ℕ) : ℕ → List Tok → Option (List AnnoyTree × List Tok)
  | 0, ts => some ([], ts)
  | c + 1, ts =>
    match rdTree d ts.length ts with
    | none => none
    | some (t, ts1) =>
      match rdTrees d c ts1 with
      | none => none
      | some (rest, ts2) => some (t :: rest, ts2)

/-- Read the kind-specific body (§4.8). -/
def rdBody (d kind : ℕ) (ts : List Tok) : Option (ActiveIndex × List Tok) :=
  match kind with
  | 0 => some (.flat, ts)
  | 1 =>
    (match rdU32 ts with
     | none => none
     | some (nc, ts1) =>
       match rdU32 ts1 with
       | none => none
       | some (mi, ts2) =>
         match rdU32 ts2 with
         | none => none
         | some (np, ts3) =>
           match rdRows nc d ts3 with
           | none => none
           | some (cents, ts4) =>
             match rdLists nc ts4 with
             | none => none
             | some (ls, ts5) => some (.ivf ⟨nc, mi, np⟩ (some ⟨cents, ls⟩), ts5))
  | 2 =>
    (match rdU32 ts with
     | none => none
     | some (nt, ts1) =>
       match rdU32 ts1 with
       | none => none
       | some (kl, ts2) =>
         match rdU8 ts2 with
         | none => none
         | some (upq, ts3) =>
           match rdTrees d nt ts3 with
           | none => none
           | some (trees, ts4) => some (.annoy ⟨nt, kl, upq == 1⟩ (some trees), ts4))
  | _ => none

/-- Parse a whole saved file: magic and version are validated, then header,
data and body are read and the payload must end exactly (§4.8). -/
def loadAux : List Tok → Option DB
  | Tok.magic :: Tok.u32 1 :: rest =>
    (match rdU32 rest with
     | none => none
     | some (d, ts1) =>
       match rdU64 ts1 with
       | none => none
       | some (c, ts2) =>
         match rdRows c d ts2 with
         | none => none
         | some (rows, ts3) =>
           match rdU8 ts3 with
           | none => none
           | some (kind, ts4) =>
             match rdBody d kind ts4 with
             | none => none
             | some (act, ts5) =>
               if ts5 = [] then some ⟨d, rows, act⟩ else none)
  | _ => none

/-- Modelled from the spec: `load` validates magic, version and payload length
and fails with `CorruptIndex` on any mismatch (§4.8, §7). -/
def load (ts : List Tok) : Except VErr DB :=
  match loadAux ts with
  | some db => .ok db
  | none => .error .corruptIndex

/-- Modelled from the spec: one call of the interleaved ingestion surface,
either `add_vector` on a plain list or `add_vector_numpy` on an array (§6). -/
inductive AddOp where
  | viaList (v : Vec)
  | viaNumpy (a : NPArray)
deriving DecidableEq, Repr

/-- Rows an ingestion call contributes to the store. -/
def opRows : AddOp → List Vec
  | .viaList v => [v]
  | .viaNumpy a => (npRows a).getD []

/-- Run one ingestion call. -/
def applyOp (db : DB) : AddOp → Except VErr (DB × List ℕ)
  | .viaList v =>
    match addVector db v with
    | .ok (db', i) => .ok (db', [i])
    | .error e => .error e
  | .viaNumpy a => addVectorNumpy db a

/-- Run a sequence of ingestion calls, collecting the IDs each returned. -/
def runOps : DB → List AddOp → Except VErr (DB × List (List ℕ))
  | db, [] => .ok (db, [])
  | db, op :: rest => do
    let (db1, ids) ← applyOp db op
    let (db2, idss) ← runOps db1 rest
    .ok (db2, ids :: idss)

/-- An ingestion call all of whose rows have length `D`: a list of length `D`,
a 1-D array of length `D`, or a 2-D `n × D` array (the shapes claim C10
interleaves). -/
def goodOp (D : ℕ) : AddOp → Prop
  | .viaList v => v.length = D
  | .viaNumpy (.d1 v) => v.length = D
  | .viaNumpy (.d2 rows) => ∀ r ∈ rows, r.length = D
  | .viaNumpy (.d3 _) => False

instance (D : ℕ) : (op : AddOp) → Decidable (goodOp D op)
  | .viaList v => inferInstanceAs (Decidable (v.length = D))
  | .viaNumpy (.d1 v) => inferInstanceAs (Decidable (v.length = D))
  | .viaNumpy (.d2 rows) => inferInstanceAs (Decidable (∀ r ∈ rows, r.length = D))
  | .viaNumpy (.d3 _) => isFalse (fun h => h)

lemma sqdist_nonneg (a b : Vec) : 0 ≤ sqdist a b := by
  induction a generalizing b with
  | nil => simp [sqdist]
  | cons x xs ih =>
    cases b with
    | nil => simp [sqdist]
    | cons y ys =>
      have h1 := ih ys
      have h2 : (0 : ℚ) ≤ (x - y) ^ 2 := sq_nonneg _
      simp only [sqdist, List.zipWith_cons_cons, List.sum_cons] at *
      linarith

lemma sqdist_self (a : Vec) : sqdist a a = 0 := by
  induction a with
  | nil => simp [sqdist]
  | cons x xs ih => simp only [sqdist, List.zipWith_cons_cons, List.sum_cons] at *; simp [ih]

lemma sqdist_eq_zero {a b : Vec} (hl : a.length = b.length) (h : sqdist a b = 0) :
    a = b := by
  induction a generalizing b with
  | nil => cases b with
    | nil => rfl
    | cons y ys => simp at hl
  | cons x xs ih =>
    cases b with
    | nil => simp at hl
    | cons y ys =>
      simp only [sqdist, List.zipWith_cons_cons, List.sum_cons] at h
      have h1 : (0 : ℚ) ≤ (x - y) ^ 2 := sq_nonneg _
      have h2 := sqdist_nonneg xs ys
      unfold sqdist at h2
      have hxy : (x - y) ^ 2 = 0 := by linarith
      have hrest : sqdist xs ys = 0 := by unfold sqdist; linarith
      have : x = y := by
        have := pow_eq_zero_iff (n := 2) (by norm_num) |>.mp hxy
        linarith
      simp at hl
      rw [this, ih hl hrest]

lemma pairLE_refl (a : ℕ × ℚ) : PairLE a a := Or.inr ⟨rfl, le_rfl⟩

lemma pairLE_snd_le {a b : ℕ × ℚ} (h : PairLE a b) : a.2 ≤ b.2 := by
  rcases h with h | ⟨h, _⟩
  · exact le_of_lt h
  · exact le_of_eq h

lemma sorted_head_le {h : ℕ × ℚ} {t : List (ℕ × ℚ)}
    (hs : List.Sorted PairLE (h :: t)) : ∀ x ∈ h :: t, PairLE h x := by
  intro x hx
  rcases List.mem_cons.mp hx with rfl | hx
  · exact pairLE_refl x
  · exact List.rel_of_sorted_cons hs x hx

lemma mem_catLists {α : Type} {x : α} {LL : List (List α)} :
    x ∈ catLists LL ↔ ∃ l ∈ LL, x ∈ l := by
  induction LL with
  | nil => simp [catLists]
  | cons hd tl ih =>
    simp only [catLists, List.mem_append, ih, List.mem_cons]
    constructor
    · rintro (hx | ⟨l, hl, hx⟩)
      · exact ⟨hd, Or.inl rfl, hx⟩
      · exact ⟨l, Or.inr hl, hx⟩
    · rintro ⟨l, rfl | hl, hx⟩
      · exact Or.inl hx
      · exact Or.inr ⟨l, hl, hx⟩

lemma rankPairs_perm (db : DB) (q : Vec) (c : List ℕ) :
    List.Perm (rankPairs db q c) (c.dedup.map (fun i => (i, sqdist q (rowOf db i)))) :=
  List.perm_insertionSort PairLE _

lemma rankPairs_sorted (db : DB) (q : Vec) (c : List ℕ) :
    List.Sorted PairLE (rankPairs db q c) :=
  List.sorted_insertionSort PairLE _

lemma mem_rankPairs {db : DB} {q : Vec} {c : List ℕ} {x : ℕ × ℚ} :
    x ∈ rankPairs db q c ↔ ∃ i ∈ c, x = (i, sqdist q (rowOf db i)) := by
  rw [(rankPairs_perm db q c).mem_iff]
  simp only [List.mem_map, List.mem_dedup]
  constructor
  · rintro ⟨i, hi, rfl⟩; exact ⟨i, hi, rfl⟩
  · rintro ⟨i, hi, rfl⟩; exact ⟨i, hi, rfl⟩

lemma rankPairs_length (db : DB) (q : Vec) (c : List ℕ) :
    (rankPairs db q c).length = c.dedup.length := by
  rw [(rankPairs_perm db q c).length_eq, List.length_map]

lemma rankPairs_fst_perm (db : DB) (q : Vec) (c : List ℕ) :
    List.Perm ((rankPairs db q c).map Prod.fst) c.dedup := by
  have := (rankPairs_perm db q c).map Prod.fst
  rwa [List.map_map, show (Prod.fst ∘ fun i => (i, sqdist q (rowOf db i))) = id from rfl,
    List.map_id] at this

lemma rerank_ids_def (db : DB) (q : Vec) (k : ℕ) (c : List ℕ) :
    (rerank db q k c).ids = ((rankPairs db q c).take k).map Prod.fst := rfl

lemma rerank_distances_def (db : DB) (q : Vec) (k : ℕ) (c : List ℕ) :
    (rerank db q k c).distances = ((rankPairs db q c).take k).map Prod.snd := rfl

lemma rerank_length_eq (db : DB) (q : Vec) (k : ℕ) (c : List ℕ) :
    (rerank db q k c).ids.length = (rerank db q k c).distances.length := by
  simp [rerank_ids_def, rerank_distances_def]

lemma rerank_ids_length (db : DB) (q : Vec) (k : ℕ) (c : List ℕ) :
    (rerank db q k c).ids.length = min k c.dedup.length := by
  simp [rerank_ids_def, rankPairs_length]

lemma rerank_ids_nodup (db : DB) (q : Vec) (k : ℕ) (c : List ℕ) :
    (rerank db q k c).ids.Nodup := by
  have h1 : (rerank db q k c).ids = ((rankPairs db q c).map Prod.fst).take k := by
    rw [rerank_ids_def, List.map_take]
  rw [h1]
  exact ((rankPairs_fst_perm db q c).nodup_iff.mpr (List.nodup_dedup c)).sublist
    (List.take_sublist k _)

lemma rerank_distances_sorted (db : DB) (q : Vec) (k : ℕ) (c : List ℕ) :
    List.Sorted (· ≤ ·) (rerank db q k c).distances := by
  rw [rerank_distances_def]
  have hs : List.Pairwise PairLE ((rankPairs db q c).take k) :=
    (rankPairs_sorted db q c).sublist (List.take_sublist k _)
  exact hs.map Prod.snd (fun a b hab => pairLE_snd_le hab)

lemma rerank_distances_nonneg (db : DB) (q : Vec) (k : ℕ) (c : List ℕ) :
    ∀ d ∈ (rerank db q k c).distances, 0 ≤ d := by
  intro d hd
  rw [rerank_distances_def] at hd
  rcases List.mem_map.mp hd with ⟨x, hx, rfl⟩
  have hx' : x ∈ rankPairs db q c := List.take_subset k _ hx
  rcases mem_rankPairs.mp hx' with ⟨i, _, rfl⟩
  exact sqdist_nonneg _ _

lemma rerank_ids_subset (db : DB) (q : Vec) (k : ℕ) (c : List ℕ) :
    (rerank db q k c).ids ⊆ c := by
  intro i hi
  rw [rerank_ids_def] at hi
  rcases List.mem_map.mp hi with ⟨x, hx, rfl⟩
  have hx' : x ∈ rankPairs db q c := List.take_subset k _ hx
  rcases mem_rankPairs.mp hx' with ⟨j, hj, rfl⟩
  exact hj

lemma dedup_length_le {c : List ℕ} {n : ℕ} (hv : ∀ i ∈ c, i < n) :
    c.dedup.length ≤ n := by
  have hsub : c.dedup ⊆ List.range n := by
    intro i hi
    exact List.mem_range.mpr (hv i (List.dedup_subset c hi))
  have := (List.subperm_of_subset (List.nodup_dedup c) hsub).length_le
  simpa using this

lemma rerank_invariants (db : DB) (q : Vec) (k : ℕ) (c : List ℕ)
    (hv : ∀ i ∈ c, i < db.store.length) :
    (rerank db q k c).ids.length ≤ min k db.store.length ∧
    (rerank db q k c).ids.Nodup ∧
    List.Sorted (· ≤ ·) (rerank db q k c).distances ∧
    ∀ d ∈ (rerank db q k c).distances, 0 ≤ d := by
  refine ⟨?_, rerank_ids_nodup db q k c, rerank_distances_sorted db q k c,
    rerank_distances_nonneg db q k c⟩
  rw [rerank_ids_length]
  exact min_le_min le_rfl (dedup_length_le hv)

lemma rerank_pos_k {db : DB} {q : Vec} {k : ℕ} {c : List ℕ}
    (h : (rerank db q k c).distances ≠ []) : 0 < k := by
  rcases Nat.eq_zero_or_pos k with rfl | hk
  · exact absurd (by rw [rerank_distances_def]; simp) h
  · exact hk

lemma rerank_distances_ne_nil {db : DB} {q : Vec} {k : ℕ} {c : List ℕ}
    (hk : 0 < k) (hc : c ≠ []) : (rerank db q k c).distances ≠ [] := by
  have hlen : (rerank db q k c).distances.length = min k c.dedup.length := by
    rw [← rerank_length_eq, rerank_ids_length]
  intro hnil
  rw [hnil] at hlen
  rcases List.exists_mem_of_ne_nil c hc with ⟨x, hx⟩
  have hd : c.dedup ≠ [] := List.ne_nil_of_mem (List.mem_dedup.mpr hx)
  have : 0 < c.dedup.length := List.length_pos.mpr hd
  simp only [List.length_nil] at hlen
  omega

lemma rerank_head_eq {db : DB} {q : Vec} {k : ℕ} {c : List ℕ} {hd : ℕ × ℚ}
    {t : List (ℕ × ℚ)} (hS : rankPairs db q c = hd :: t) (hk : 0 < k) :
    (rerank db q k c).distances.headI = hd.2 := by
  rcases k with _ | k'
  · exact absurd hk (by omega)
  · rw [rerank_distances_def, hS, List.take_succ_cons]
    simp

lemma rerank_head (db : DB) (q : Vec) (k : ℕ) (c : List ℕ)
    (h : (rerank db q k c).distances ≠ []) :
    ∃ i ∈ c, (rerank db q k c).distances.headI = sqdist q (rowOf db i) := by
  have hk : 0 < k := rerank_pos_k h
  rcases hS : rankPairs db q c with _ | ⟨hd, t⟩
  · exact absurd (by rw [rerank_distances_def, hS]; simp) h
  · have hhd : hd ∈ rankPairs db q c := by rw [hS]; exact List.mem_cons_self hd t
    rcases mem_rankPairs.mp hhd with ⟨i, hi, rfl⟩
    exact ⟨i, hi, rerank_head_eq hS hk⟩

lemma rerank_head_le (db : DB) (q : Vec) (k : ℕ) (c : List ℕ) (i : ℕ)
    (hk : 0 < k) (hi : i ∈ c) :
    (rerank db q k c).distances.headI ≤ sqdist q (rowOf db i) := by
  have hmem : (i, sqdist q (rowOf db i)) ∈ rankPairs db q c :=
    mem_rankPairs.mpr ⟨i, hi, rfl⟩
  rcases hS : rankPairs db q c with _ | ⟨hd, t⟩
  · rw [hS] at hmem; exact absurd hmem (List.not_mem_nil _)
  · rw [hS] at hmem
    have hrel : PairLE hd (i, sqdist q (rowOf db i)) := by
      have hs : List.Sorted PairLE (hd :: t) := hS ▸ rankPairs_sorted db q c
      exact sorted_head_le hs _ hmem
    rw [rerank_head_eq hS hk]
    exact pairLE_snd_le hrel

lemma rerank_mono (db : DB) (q : Vec) (k : ℕ) {c₁ c₂ : List ℕ} (hsub : c₁ ⊆ c₂)
    (hne : (rerank db q k c₁).distances ≠ []) :
    (rerank db q k c₂).distances ≠ [] ∧
    (rerank db q k c₂).distances.headI ≤ (rerank db q k c₁).distances.headI := by
  have hk : 0 < k := rerank_pos_k hne
  rcases rerank_head db q k c₁ hne with ⟨i, hi, hhead⟩
  have hi2 : i ∈ c₂ := hsub hi
  refine ⟨rerank_distances_ne_nil hk (List.ne_nil_of_mem hi2), ?_⟩
  rw [hhead]
  exact rerank_head_le db q k c₂ i hk hi2

lemma getD_list_valid {ls : List (List ℕ)} {n : ℕ}
    (h : ∀ l ∈ ls, ∀ i ∈ l, i < n) (c : ℕ) : ∀ i ∈ ls.getD c [], i < n := by
  intro i hi
  by_cases hc : c < ls.length
  · rw [List.getD_eq_getElem ls [] hc] at hi
    exact h _ (List.getElem_mem hc) i hi
  · rw [List.getD_eq_default ls [] (le_of_not_lt hc)] at hi
    exact absurd hi (List.not_mem_nil i)

lemma ivfCandidates_valid {s : IVFStruct} {n : ℕ}
    (h : ∀ l ∈ s.lists, ∀ i ∈ l, i < n) (q : Vec) (p : ℕ) :
    ∀ i ∈ ivfCandidates s q p, i < n := by
  intro i hi
  unfold ivfCandidates at hi
  rcases mem_catLists.mp hi with ⟨l, hl, hil⟩
  rcases List.mem_map.mp hl with ⟨c, _, rfl⟩
  exact getD_list_valid h c i hil

lemma descend_subset (q : Vec) (t : AnnoyTree) : descend q t ⊆ leafIds t := by
  induction t with
  | leaf ids => simp [descend, leafIds, List.Subset.refl]
  | inner nr off l r ihl ihr =>
    unfold descend leafIds
    split
    · exact ihl.trans (List.subset_append_left _ _)
    · exact ihr.trans (List.subset_append_right _ _)

lemma greedyCandidates_valid {ts : List AnnoyTree} {n : ℕ}
    (h : ∀ t ∈ ts, ∀ i ∈ leafIds t, i < n) (q : Vec) :
    ∀ i ∈ greedyCandidates ts q, i < n := by
  intro i hi
  unfold greedyCandidates at hi
  rcases mem_catLists.mp hi with ⟨l, hl, hil⟩
  rcases List.mem_map.mp hl with ⟨t, ht, rfl⟩
  exact h t ht i (descend_subset q t hil)


lemma popMinEntry_eq_none {l : List (ℚ × AnnoyTree)} (h : popMinEntry l = none) :
    l = [] := by
  cases l with
  | nil => rfl
  | cons e tail =>
    exfalso
    revert h
    unfold popMinEntry
    cases popMinEntry tail with
    | none => simp
    | some p =>
      rcases p with ⟨m', others⟩
      dsimp only
      split <;> simp

lemma popMinEntry_perm {l : List (ℚ × AnnoyTree)} {m : ℚ × AnnoyTree}
    {rest : List (ℚ × AnnoyTree)} (h : popMinEntry l = some (m, rest)) :
    List.Perm (m :: rest) l := by
  induction l generalizing m rest with
  | nil => simp [popMinEntry] at h
  | cons e tail ih =>
    revert h
    unfold popMinEntry
    cases hpm : popMinEntry tail with
    | none =>
      intro h
      have htail := popMinEntry_eq_none hpm
      subst htail
      simp only [Option.some.injEq, Prod.mk.injEq] at h
      obtain ⟨rfl, rfl⟩ := h
      exact List.Perm.refl _
    | some p =>
      rcases p with ⟨m', others⟩
      intro h
      dsimp only at h
      by_cases hle : e.1 ≤ m'.1
      · rw [if_pos hle] at h
        simp only [Option.some.injEq, Prod.mk.injEq] at h
        obtain ⟨rfl, rfl⟩ := h
        exact List.Perm.refl _
      · rw [if_neg hle] at h
        simp only [Option.some.injEq, Prod.mk.injEq] at h
        obtain ⟨rfl, rfl⟩ := h
        exact (List.Perm.swap e m' others).trans ((ih hpm).cons e)

lemma popMinEntry_mem {l : List (ℚ × AnnoyTree)} {m : ℚ × AnnoyTree}
    {rest : List (ℚ × AnnoyTree)} (h : popMinEntry l = some (m, rest)) : m ∈ l :=
  (popMinEntry_perm h).subset (List.mem_cons_self _ _)

lemma popMinEntry_rest_subset {l : List (ℚ × AnnoyTree)} {m : ℚ × AnnoyTree}
    {rest : List (ℚ × AnnoyTree)} (h : popMinEntry l = some (m, rest)) :
    ∀ x ∈ rest, x ∈ l :=
  fun x hx => (popMinEntry_perm h).subset (List.mem_cons_of_mem m hx)

lemma leafIds_leaf (ids : List ℕ) : leafIds (.leaf ids) = ids := rfl

lemma leafIds_inner (nr : Vec) (off : ℚ) (l r : AnnoyTree) :
    leafIds (.inner nr off l r) = leafIds l ++ leafIds r := rfl

lemma leafIds_if_subset (cond : Prop) [Decidable cond] (l r : AnnoyTree)
    (L : List ℕ) (hl : leafIds l ⊆ L) (hr : leafIds r ⊆ L) :
    leafIds (if cond then l else r) ⊆ L := by
  by_cases h : cond
  · rw [if_pos h]; exact hl
  · rw [if_neg h]; exact hr

lemma pqLoop_subset (q : Vec) :
    ∀ (fuel : ℕ) (queue : List (ℚ × AnnoyTree)),
    pqLoop q fuel queue ⊆ catLists (queue.map (fun e => leafIds e.2)) := by
  intro fuel
  induction fuel with
  | zero => intro queue; simp [pqLoop]
  | succ f ih =>
    intro queue i
    unfold pqLoop
    cases hpm : popMinEntry queue with
    | none => intro hi; exact absurd hi (List.not_mem_nil i)
    | some p =>
      rcases p with ⟨⟨key, node⟩, rest⟩
      cases node with
      | leaf ids =>
        intro hi
        rcases List.mem_append.mp hi with hiid | hrec
        · exact mem_catLists.mpr ⟨leafIds (.leaf ids),
            List.mem_map.mpr ⟨(key, .leaf ids), popMinEntry_mem hpm, rfl⟩, hiid⟩
        · have h2 := ih rest hrec
          rcases mem_catLists.mp h2 with ⟨l, hl, hil⟩
          rcases List.mem_map.mp hl with ⟨e, he, rfl⟩
          exact mem_catLists.mpr
            ⟨_, List.mem_map.mpr ⟨e, popMinEntry_rest_subset hpm e he, rfl⟩, hil⟩
      | inner nr off l r =>
        intro hi
        have h2 := ih _ hi
        rcases mem_catLists.mp h2 with ⟨lst, hl, hil⟩
        rcases List.mem_map.mp hl with ⟨e, he, rfl⟩
        have hinner : i ∈ leafIds (AnnoyTree.inner nr off l r) →
            i ∈ catLists (queue.map (fun e => leafIds e.2)) := fun hx =>
          mem_catLists.mpr ⟨leafIds (.inner nr off l r),
            List.mem_map.mpr ⟨(key, .inner nr off l r), popMinEntry_mem hpm, rfl⟩, hx⟩
        rcases List.mem_cons.mp he with rfl | he
        · refine hinner ?_
          rw [leafIds_inner]
          exact leafIds_if_subset _ l r _ (List.subset_append_left _ _)
            (List.subset_append_right _ _) hil
        · rcases List.mem_cons.mp he with rfl | he
          · refine hinner ?_
            rw [leafIds_inner]
            exact leafIds_if_subset _ r l _ (List.subset_append_right _ _)
              (List.subset_append_left _ _) hil
          · exact mem_catLists.mpr
              ⟨_, List.mem_map.mpr ⟨e, popMinEntry_rest_subset hpm e he, rfl⟩, hil⟩

lemma pqCandidates_valid {ts : List AnnoyTree} {n : ℕ}
    (h : ∀ t ∈ ts, ∀ i ∈ leafIds t, i < n) (q : Vec) (sk : ℕ) :
    ∀ i ∈ pqCandidates ts q sk, i < n := by
  intro i hi
  have h1 : i ∈ expandOrder ts q := List.take_subset sk _ hi
  have h2 := pqLoop_subset q (forestSize ts) _ h1
  rcases mem_catLists.mp h2 with ⟨l, hl, hil⟩
  rcases List.mem_map.mp hl with ⟨e, he, rfl⟩
  rcases List.mem_map.mp he with ⟨t, ht, rfl⟩
  exact h t ht i hil

/-- C1: for every database state, every active index kind (Flat, IVF, Annoy),
every query and every `k`, `search(query, k)` returns at most `min(k, size())`
results, with pairwise-distinct IDs, non-decreasing distances, and all
distances nonnegative. -/
theorem search_invariants_c1 (db : DB) (q : Vec) (k : ℕ) (r : SearchResult)
    (hwf : dbWF db) (h : search db q k none = .ok r) :
    r.ids.length ≤ min k db.size ∧ r.ids.Nodup ∧
    List.Sorted (· ≤ ·) r.distances ∧ ∀ d ∈ r.distances, 0 ≤ d := by
  obtain ⟨hstore, hidx⟩ := hwf
  have main : ∀ c : List ℕ, (∀ i ∈ c, i < db.store.length) → rerank db q k c = r →
      r.ids.length ≤ min k db.size ∧ r.ids.Nodup ∧
      List.Sorted (· ≤ ·) r.distances ∧ ∀ d ∈ r.distances, 0 ≤ d := by
    rintro c hv rfl
    exact rerank_invariants db q k c hv
  have hrange : ∀ i ∈ List.range db.store.length, i < db.store.length :=
    fun i hi => List.mem_range.mp hi
  rcases hact : db.active with _ | _ | ⟨cfg, os⟩ | ⟨cfg, os⟩
  · simp only [search, hact, Except.ok.injEq] at h
    exact main _ hrange h
  · simp only [search, hact, Except.ok.injEq] at h
    exact main _ hrange h
  · rcases os with _ | s
    · simp only [search, hact, Except.ok.injEq] at h
      exact main _ hrange h
    · simp only [search, hact, Except.ok.injEq] at h
      rw [hact] at hidx
      exact main _ (ivfCandidates_valid hidx q cfg.n_probe) h
  · rcases os with _ | ts
    · simp only [search, hact, Except.ok.injEq] at h
      exact main _ hrange h
    · simp only [search, hact, Except.ok.injEq] at h
      rw [hact] at hidx
      rcases hupq : cfg.use_priority_queue with _ | _
      · simp only [annoySearch, Option.getD, hupq, Bool.false_eq_true, if_false] at h
        exact main _ (greedyCandidates_valid hidx q) h
      · simp only [annoySearch, Option.getD, hupq, if_true] at h
        exact main _ (pqCandidates_valid hidx q _) h

/-- Concrete database used by the witnesses: three one-dimensional vectors
under the Flat index. -/
def sampleFlatDB : DB := ⟨1, [[0], [2], [1]], .flat⟩

/-- Witness for C1 at a concrete database, query and `k`. -/
theorem search_invariants_c1_witness :
    ∃ r, search sampleFlatDB [0] 2 none = Except.ok r ∧
      (r.ids.length ≤ min 2 sampleFlatDB.size ∧ r.ids.Nodup ∧
       List.Sorted (· ≤ ·) r.distances ∧ ∀ d ∈ r.distances, 0 ≤ d) := by
  have hwf : dbWF sampleFlatDB := by decide
  have hs : search sampleFlatDB [0] 2 none = Except.ok ⟨[0, 2], [0, 1]⟩ := by
    norm_num [search, sampleFlatDB, flatSearch, rerank, rankPairs, rowOf, sqdist,
      PairLE, List.dedup, List.insertionSort, List.range]
  exact ⟨_, hs, search_invariants_c1 sampleFlatDB [0] 2 _ hwf hs⟩

/-- C7: if the active index kind is IVF or Annoy but `build_index` has not run,
`search` returns exactly the Flat (exact brute-force) results for every query
and `k`, not an error and not an empty result. -/
theorem unbuilt_fallback_c7 (db : DB) (q : Vec) (k : ℕ)
    (h : (∃ cfg, db.active = .ivf cfg none) ∨ (∃ cfg, db.active = .annoy cfg none)) :
    search db q k none = .ok (flatSearch db q k) := by
  rcases h with ⟨cfg, hact⟩ | ⟨cfg, hact⟩ <;> simp [search, hact]

/-- Concrete database with an IVF index selected but never built. -/
def sampleUnbuiltDB : DB := ⟨1, [[0], [2]], .ivf ⟨2, 5, 1⟩ none⟩

/-- Witness for C7 at a concrete unbuilt-IVF database. -/
theorem unbuilt_fallback_c7_witness :
    search sampleUnbuiltDB [0] 1 none = .ok (flatSearch sampleUnbuiltDB [0] 1) :=
  unbuilt_fallback_c7 sampleUnbuiltDB [0] 1 (Or.inl ⟨⟨2, 5, 1⟩, rfl⟩)

/-- C8: once the dimension is fixed by a first insertion, adding a vector of a
different length fails with `DimensionMismatch` and leaves `size()`,
`dimension()` and the stored vectors unchanged. -/
theorem dimension_mismatch_c8 (db : DB) (v : Vec)
    (hne : db.store ≠ []) (hlen : v.length ≠ db.dim) :
    addVector db v = .error .dimensionMismatch ∧
    (addVectorState db v).size = db.size ∧
    (addVectorState db v).dimension = db.dimension ∧
    (addVectorState db v).store = db.store := by
  have hemp : db.store.isEmpty = false := by
    cases hs : db.store with
    | nil => exact absurd hs hne
    | cons a l => rfl
  have herr : addVector db v = .error .dimensionMismatch := by
    simp [addVector, hemp, hlen]
  have hstate : addVectorState db v = db := by
    simp [addVectorState, herr]
  exact ⟨herr, by rw [hstate], by rw [hstate], by rw [hstate]⟩

/-- Witness for C8: a store holding `[1,2,3]` rejects `[1,2]`. -/
theorem dimension_mismatch_c8_witness :
    addVector ⟨3, [[1, 2, 3]], .flat⟩ [1, 2] = .error .dimensionMismatch ∧
    (addVectorState ⟨3, [[1, 2, 3]], .flat⟩ [1, 2]).size = (⟨3, [[1, 2, 3]], .flat⟩ : DB).size ∧
    (addVectorState ⟨3, [[1, 2, 3]], .flat⟩ [1, 2]).dimension =
      (⟨3, [[1, 2, 3]], .flat⟩ : DB).dimension ∧
    (addVectorState ⟨3, [[1, 2, 3]], .flat⟩ [1, 2]).store = (⟨3, [[1, 2, 3]], .flat⟩ : DB).store :=
  dimension_mismatch_c8 ⟨3, [[1, 2, 3]], .flat⟩ [1, 2] (by decide) (by decide)

/-- Whether a batch-add outcome is the `InvalidShape` error. -/
def isInvalidShape : Except VErr (DB × List ℕ) → Bool
  | .error .invalidShape => true
  | _ => false

/-- C9: batch add accepts 1-D and 2-D inputs (it never reports `InvalidShape`
for them); every 3-D input fails with `InvalidShape` and appends nothing. -/
theorem invalid_shape_c9 (db : DB) (cube : List (List Vec)) (v : Vec)
    (rows : List Vec) :
    addVectorNumpy db (.d3 cube) = .error .invalidShape ∧
    addVectorNumpyState db (.d3 cube) = db ∧
    isInvalidShape (addVectorNumpy db (.d1 v)) = false ∧
    isInvalidShape (addVectorNumpy db (.d2 rows)) = false := by
  refine ⟨rfl, rfl, ?_, ?_⟩
  · simp only [addVectorNumpy, npRows, addBatch]
    split_ifs <;> rfl
  · simp only [addVectorNumpy, npRows, addBatch]
    split_ifs <;> rfl

lemma applyOp_spec (D : ℕ) (db : DB) (op : AddOp) (hop : goodOp D op)
    (hinv : db.store ≠ [] → db.dim = D) :
    ∃ db1 ids1, applyOp db op = .ok (db1, ids1) ∧
      db1.store = db.store ++ opRows op ∧
      db1.active = db.active ∧
      (db1.store ≠ [] → db1.dim = D) ∧
      (db1.store = [] → db1.dim = db.dim) ∧
      ids1 = List.range' db.store.length (opRows op).length := by
  cases op with
  | viaList v =>
    have hlen : v.length = D := hop
    by_cases hemp : db.store.isEmpty
    · have hnil : db.store = [] := List.isEmpty_iff.mp hemp
      refine ⟨{ db with dim := v.length, store := [v] }, [0], ?_, ?_, rfl, ?_, ?_, ?_⟩
      · simp [applyOp, addVector, hemp]
      · simp [hnil, opRows]
      · intro _; exact hlen
      · intro h; simp at h
      · simp [hnil, opRows, List.range']
    · have hd : db.dim = D := hinv (fun h => hemp (by simp [h]))
      refine ⟨{ db with store := db.store ++ [v] }, [db.store.length], ?_, ?_, rfl, ?_, ?_, ?_⟩
      · simp [applyOp, addVector, hemp, hlen, hd]
      · simp [opRows]
      · intro _; exact hd
      · intro h; simp at h
      · simp [opRows, List.range']
  | viaNumpy a =>
    cases a with
    | d1 v =>
      have hlen : v.length = D := hop
      have hbd : batchDim db [v] = D := by
        by_cases hemp : db.store.isEmpty
        · simp [batchDim, hemp, hlen]
        · simp [batchDim, hemp]
          exact hinv (fun h => hemp (by simp [h]))
      refine ⟨{ db with dim := batchDim db [v], store := db.store ++ [v] },
        List.range' db.store.length 1, ?_, ?_, rfl, ?_, ?_, ?_⟩
      · simp [applyOp, addVectorNumpy, npRows, addBatch, hbd, hlen]
      · simp [opRows, npRows]
      · intro _; rw [hbd]
      · intro h; simp at h
      · simp [opRows, npRows]
    | d2 rows =>
      have hall : ∀ r ∈ rows, r.length = D := hop
      cases rows with
      | nil =>
        refine ⟨db, [], ?_, ?_, rfl, hinv, fun _ => rfl, ?_⟩
        · simp [applyOp, addVectorNumpy, npRows, addBatch]
        · simp [opRows, npRows]
        · simp [opRows, npRows, List.range']
      | cons r rs =>
        have hbd : batchDim db (r :: rs) = D := by
          by_cases hemp : db.store.isEmpty
          · simp [batchDim, hemp]
            exact hall r (List.mem_cons_self _ _)
          · simp [batchDim, hemp]
            exact hinv (fun h => hemp (by simp [h]))
        have hcheck : (r :: rs).all (fun x => x.length = batchDim db (r :: rs)) = true := by
          rw [List.all_eq_true]
          intro x hx
          simp only [decide_eq_true_eq]
          rw [hbd]
          exact hall x hx
        refine ⟨{ db with dim := batchDim db (r :: rs), store := db.store ++ (r :: rs) },
          List.range' db.store.length (r :: rs).length, ?_, ?_, rfl, ?_, ?_, ?_⟩
        · simp only [applyOp, addVectorNumpy, npRows, addBatch, List.isEmpty_cons,
            if_false, hcheck, if_true, Bool.false_eq_true]
        · simp [opRows, npRows]
        · intro _; rw [hbd]
        · intro h; simp at h
        · simp [opRows, npRows]
    | d3 cube => exact absurd hop (fun h => h)

lemma runOps_spec (D : ℕ) :
    ∀ (ops : List AddOp) (db : DB),
    (∀ op ∈ ops, goodOp D op) →
    (db.store ≠ [] → db.dim = D) →
    ∃ db' idss,
      runOps db ops = .ok (db', idss) ∧
      db'.store = db.store ++ catLists (ops.map opRows) ∧
      db'.active = db.active ∧
      (db'.store ≠ [] → db'.dim = D) ∧
      (db'.store = [] → db'.dim = db.dim) ∧
      catLists idss = List.range' db.store.length (catLists (ops.map opRows)).length := by
  intro ops
  induction ops with
  | nil =>
    intro db _ hinv
    exact ⟨db, [], rfl, by simp [catLists], rfl, hinv, fun _ => rfl,
      by simp [catLists, List.range']⟩
  | cons op rest ih =>
    intro db hops hinv
    obtain ⟨db1, ids1, hstep, hstore1, hact1, hinv1, hdim1, hids1⟩ :=
      applyOp_spec D db op (hops op (List.mem_cons_self _ _)) hinv
    obtain ⟨db', idss, hrun, hstore', hact', hinv', hdim', hids'⟩ :=
      ih db1 (fun o ho => hops o (List.mem_cons_of_mem _ ho)) hinv1
    have hlen1 : db1.store.length = db.store.length + (opRows op).length := by
      rw [hstore1, List.length_append]
    refine ⟨db', ids1 :: idss, ?_, ?_, ?_, hinv', ?_, ?_⟩
    · simp only [runOps, hstep, hrun, bind, Except.bind]
    · rw [hstore', hstore1, List.map_cons, catLists, List.append_assoc]
    · rw [hact', hact1]
    · intro hnil
      have hnil2 := hnil
      rw [hstore'] at hnil2
      rcases List.append_eq_nil.mp hnil2 with ⟨h1, _⟩
      rw [hdim' hnil, hdim1 h1]
    · rw [catLists, hids', hids1, hlen1, List.map_cons, catLists, List.length_append]
      have hr := List.range'_append db.store.length (opRows op).length
        (catLists (rest.map opRows)).length 1
      simp only [one_mul] at hr
      rw [Nat.add_comm ((opRows op).length) ((catLists (List.map opRows rest)).length)]
      exact hr

/-- C10: interleaved successful `add_vector` and `add_vector_numpy` calls (1-D
length-`D` vectors and 2-D `n × D` arrays, a `(1, D)` array contributing one
row) accumulate into one store: `size()` equals the total number of rows
added, `dimension()` remains `D`, and the assigned IDs continue consecutively
in insertion order. -/
theorem interleaved_adds_c10 (D : ℕ) (ops : List AddOp)
    (hops : ∀ op ∈ ops, goodOp D op) :
    ∃ db' idss, runOps emptyDB ops = .ok (db', idss) ∧
      db'.store = catLists (ops.map opRows) ∧
      db'.size = (catLists (ops.map opRows)).length ∧
      (0 < db'.size → db'.dimension = D) ∧
      catLists idss = List.range db'.size := by
  obtain ⟨db', idss, hrun, hstore, _, hinv, _, hids⟩ :=
    runOps_spec D ops emptyDB hops (fun h => absurd rfl h)
  have hstore' : db'.store = catLists (ops.map opRows) := by
    rw [hstore]; rfl
  refine ⟨db', idss, hrun, hstore', ?_, ?_, ?_⟩
  · rw [DB.size, hstore']
  · intro hpos
    rw [DB.size] at hpos
    exact hinv (List.length_pos.mp hpos)
  · rw [hids, DB.size, hstore']
    rw [List.range_eq_range']
    rfl

/-- Witness for C10: a list add, a 1-D array add and a 2-D batch of two rows,
all of dimension 2. -/
theorem interleaved_adds_c10_witness :
    ∃ db' idss,
      runOps emptyDB [AddOp.viaList [1, 2], AddOp.viaNumpy (.d1 [3, 4]),
        AddOp.viaNumpy (.d2 [[5, 6], [7, 8]])] = .ok (db', idss) ∧
      db'.store = catLists ([AddOp.viaList [1, 2], AddOp.viaNumpy (.d1 [3, 4]),
        AddOp.viaNumpy (.d2 [[5, 6], [7, 8]])].map opRows) ∧
      db'.size = (catLists ([AddOp.viaList [1, 2], AddOp.viaNumpy (.d1 [3, 4]),
        AddOp.viaNumpy (.d2 [[5, 6], [7, 8]])].map opRows)).length ∧
      (0 < db'.size → db'.dimension = 2) ∧
      catLists idss = List.range db'.size :=
  interleaved_adds_c10 2 _ (by decide)

lemma rowOf_mem {db : DB} {j : ℕ} (h : j < db.store.length) : rowOf db j ∈ db.store := by
  rw [rowOf, List.getD_eq_getElem _ _ h]
  exact List.getElem_mem h

lemma flatSearch_self (db : DB) (i : ℕ) (hwf : storeWF db) (hi : i < db.store.length)
    (hfirst : ∀ j, j < i → rowOf db j ≠ rowOf db i) :
    flatSearch db (rowOf db i) 1 = ⟨[i], [0]⟩ := by
  have hmem : (i, (0 : ℚ)) ∈ rankPairs db (rowOf db i) (List.range db.store.length) := by
    apply mem_rankPairs.mpr
    exact ⟨i, List.mem_range.mpr hi, by rw [sqdist_self]⟩
  rcases hS : rankPairs db (rowOf db i) (List.range db.store.length) with _ | ⟨hd, t⟩
  · rw [hS] at hmem; exact absurd hmem (List.not_mem_nil _)
  · have hhd : hd ∈ rankPairs db (rowOf db i) (List.range db.store.length) := by
      rw [hS]; exact List.mem_cons_self _ _
    rcases mem_rankPairs.mp hhd with ⟨j, hj, rfl⟩
    have hjn : j < db.store.length := List.mem_range.mp hj
    rw [hS] at hmem
    have hsorted : List.Sorted PairLE ((j, sqdist (rowOf db i) (rowOf db j)) :: t) :=
      hS ▸ rankPairs_sorted db (rowOf db i) (List.range db.store.length)
    have hrel : PairLE (j, sqdist (rowOf db i) (rowOf db j)) (i, 0) :=
      sorted_head_le hsorted _ hmem
    have hd0 : sqdist (rowOf db i) (rowOf db j) = 0 ∧ j ≤ i := by
      rcases hrel with hlt | ⟨heq, hle⟩
      · exact absurd hlt (not_lt.mpr (sqdist_nonneg _ _))
      · exact ⟨heq, hle⟩
    have hrow : rowOf db i = rowOf db j := by
      apply sqdist_eq_zero _ hd0.1
      rw [hwf.1 _ (rowOf_mem hi), hwf.1 _ (rowOf_mem hjn)]
    have hji : j = i := by
      rcases Nat.lt_or_ge j i with hlt | hge
      · exact absurd hrow.symm (hfirst j hlt)
      · omega
    subst hji
    have hz : sqdist (rowOf db j) (rowOf db j) = 0 := sqdist_self _
    have hfinal : flatSearch db (rowOf db j) 1 =
        ⟨((rankPairs db (rowOf db j) (List.range db.store.length)).take 1).map Prod.fst,
         ((rankPairs db (rowOf db j) (List.range db.store.length)).take 1).map Prod.snd⟩ := rfl
    rw [hfinal, hS, hz]
    rfl

/-- Counterexample database for C2: two identical stored vectors. -/
def dupDB : DB := ⟨1, [[0], [0]], .flat⟩

/-- C2 counterexample: in a store holding the same vector at IDs 0 and 1, a
Flat `search(v₁, 1)` returns ID 0 (the lower-ID tie-break), not `(1, 0.0)` as
the claim requires for the stored vector `v₁`. -/
theorem flat_self_search_c2_counterexample :
    dbWF dupDB ∧
    search dupDB (rowOf dupDB 1) 1 none = .ok ⟨[0], [0]⟩ ∧
    ¬ search dupDB (rowOf dupDB 1) 1 none = .ok ⟨[1], [0]⟩ := by
  have h : search dupDB (rowOf dupDB 1) 1 none = .ok ⟨[0], [0]⟩ := by
    norm_num [search, dupDB, flatSearch, rerank, rankPairs, rowOf, sqdist, PairLE,
      List.dedup, List.insertionSort, List.range]
  refine ⟨by decide, h, fun hc => ?_⟩
  rw [h] at hc
  simp at hc

/-- C2 amended: for every stored `vᵢ` that is not a duplicate of an
earlier-stored vector, a Flat-index `search(vᵢ, 1)` returns exactly
`(i, 0.0)`; for a duplicate, the same distance `0.0` is returned with the
lowest ID among the equal vectors. -/
theorem flat_self_search_c2_amended (db : DB) (i : ℕ)
    (hact : db.active = .flat) (hwf : storeWF db) (hi : i < db.store.length)
    (hfirst : ∀ j, j < i → rowOf db j ≠ rowOf db i) :
    search db (rowOf db i) 1 none = .ok ⟨[i], [0]⟩ := by
  have h := flatSearch_self db i hwf hi hfirst
  simp only [search, hact, h]

/-- Witness for the amended C2 at a concrete store with three distinct rows. -/
theorem flat_self_search_c2_witness :
    search sampleFlatDB (rowOf sampleFlatDB 1) 1 none = .ok ⟨[1], [0]⟩ :=
  flat_self_search_c2_amended sampleFlatDB 1 rfl (by decide) (by decide)
    (by intro j hj; rw [show j = 0 by omega]; decide)

lemma flatSearch_ids_length (db : DB) (q : Vec) (k : ℕ) :
    (flatSearch db q k).ids.length = min k db.store.length := by
  rw [flatSearch, rerank_ids_length, List.dedup_eq_self.mpr (List.nodup_range _),
    List.length_range]

/-- Counterexample database for C3: a well-formed built IVF index over two
vectors with two singleton inverted lists and `n_probe = 1`. -/
def smallIvfDB : DB :=
  ⟨1, [[0], [10]], .ivf ⟨2, 5, 1⟩ (some ⟨[[0], [10]], [[0], [1]]⟩)⟩

/-- C3 counterexample: with `n_probe = 1` only one singleton inverted list is
scanned, so `search(q, 2)` returns 1 entry although `min(k, size()) = 2`. -/
theorem search_length_c3_counterexample :
    dbWF smallIvfDB ∧
    search smallIvfDB [0] 2 none = .ok ⟨[0], [0]⟩ ∧
    ¬ (SearchResult.ids ⟨[0], [0]⟩).length = min 2 smallIvfDB.size := by
  refine ⟨by decide, ?_, by decide⟩
  norm_num [search, smallIvfDB, ivfSearch, ivfCandidates, centroidOrder, clampProbe,
    catLists, rerank, rankPairs, rowOf, sqdist, PairLE, List.dedup,
    List.insertionSort, List.range]

/-- C3 amended: `ids` and `distances` always have equal length, and that
length is at most `min(k, size())`; the length equals `min(k, size())` exactly
when the active index is Flat (an IVF or Annoy search may return fewer entries
when its scanned candidate set is smaller than `k`); in particular a search on
an empty store returns empty results without error. -/
theorem search_length_c3_amended (db : DB) (q : Vec) (k : ℕ) (r : SearchResult)
    (hwf : dbWF db) (h : search db q k none = .ok r) :
    r.ids.length = r.distances.length ∧
    r.ids.length ≤ min k db.size ∧
    (db.active = .flat → r.ids.length = min k db.size) ∧
    (db.size = 0 → r.ids = [] ∧ r.distances = []) := by
  obtain ⟨hstore, hidx⟩ := hwf
  have gen : ∀ c, (∀ i ∈ c, i < db.store.length) → rerank db q k c = r →
      r.ids.length = r.distances.length ∧ r.ids.length ≤ min k db.size ∧
      (db.size = 0 → r.ids = [] ∧ r.distances = []) := by
    rintro c hv rfl
    have hle : (rerank db q k c).ids.length ≤ min k db.size := by
      rw [rerank_ids_length]
      exact min_le_min le_rfl (dedup_length_le hv)
    refine ⟨rerank_length_eq db q k c, hle, ?_⟩
    intro h0
    have hz : (rerank db q k c).ids.length = 0 := by
      have : min k db.size = 0 := by rw [DB.size] at *; omega
      omega
    have hz2 : (rerank db q k c).distances.length = 0 := by
      rw [← rerank_length_eq]; exact hz
    exact ⟨List.length_eq_zero.mp hz, List.length_eq_zero.mp hz2⟩
  have hrange : ∀ i ∈ List.range db.store.length, i < db.store.length :=
    fun i hi => List.mem_range.mp hi
  rcases hact : db.active with _ | _ | ⟨cfg, os⟩ | ⟨cfg, os⟩
  · simp only [search, hact, Except.ok.injEq] at h
    obtain ⟨g1, g2, g3⟩ := gen _ hrange h
    exact ⟨g1, g2, fun hf => absurd hf (by simp), g3⟩
  · simp only [search, hact, Except.ok.injEq] at h
    obtain ⟨g1, g2, g3⟩ := gen _ hrange h
    refine ⟨g1, g2, fun _ => ?_, g3⟩
    rw [← h, flatSearch_ids_length]
    rfl
  · rcases os with _ | s
    · simp only [search, hact, Except.ok.injEq] at h
      obtain ⟨g1, g2, g3⟩ := gen _ hrange h
      exact ⟨g1, g2, fun hf => absurd hf (by simp), g3⟩
    · simp only [search, hact, Except.ok.injEq] at h
      rw [hact] at hidx
      obtain ⟨g1, g2, g3⟩ := gen _ (ivfCandidates_valid hidx q cfg.n_probe) h
      exact ⟨g1, g2, fun hf => absurd hf (by simp), g3⟩
  · rcases os with _ | ts
    · simp only [search, hact, Except.ok.injEq] at h
      obtain ⟨g1, g2, g3⟩ := gen _ hrange h
      exact ⟨g1, g2, fun hf => absurd hf (by simp), g3⟩
    · simp only [search, hact, Except.ok.injEq] at h
      rw [hact] at hidx
      rcases hupq : cfg.use_priority_queue with _ | _
      · simp only [annoySearch, Option.getD, hupq, Bool.false_eq_true, if_false] at h
        obtain ⟨g1, g2, g3⟩ := gen _ (greedyCandidates_valid hidx q) h
        exact ⟨g1, g2, fun hf => absurd hf (by simp), g3⟩
      · simp only [annoySearch, Option.getD, hupq, if_true] at h
        obtain ⟨g1, g2, g3⟩ := gen _ (pqCandidates_valid hidx q _) h
        exact ⟨g1, g2, fun hf => absurd hf (by simp), g3⟩

/-- Witness for the amended C3 at a concrete Flat database. -/
theorem search_length_c3_witness :
    ∃ r, search sampleFlatDB [0] 2 none = Except.ok r ∧
      (r.ids.length = r.distances.length ∧
       r.ids.length ≤ min 2 sampleFlatDB.size ∧
       (sampleFlatDB.active = .flat → r.ids.length = min 2 sampleFlatDB.size) ∧
       (sampleFlatDB.size = 0 → r.ids = [] ∧ r.distances = [])) := by
  have hwf : dbWF sampleFlatDB := by decide
  have hs : search sampleFlatDB [0] 2 none = Except.ok ⟨[0, 2], [0, 1]⟩ := by
    norm_num [search, sampleFlatDB, flatSearch, rerank, rankPairs, rowOf, sqdist,
      PairLE, List.dedup, List.insertionSort, List.range]
  exact ⟨_, hs, search_length_c3_amended sampleFlatDB [0] 2 _ hwf hs⟩

lemma take_subset_take {α : Type} {l : List α} {a b : ℕ} (h : a ≤ b) :
    l.take a ⊆ l.take b := by
  intro x hx
  have heq : l.take a = (l.take b).take a := by
    rw [List.take_take, min_eq_left h]
  rw [heq] at hx
  exact List.take_subset a (l.take b) hx

lemma clampProbe_mono (nc p : ℕ) : clampProbe nc p ≤ clampProbe nc (p + 1) := by
  unfold clampProbe
  omega

lemma ivfCandidates_mono (s : IVFStruct) (q : Vec) (p : ℕ) :
    ivfCandidates s q p ⊆ ivfCandidates s q (p + 1) := by
  intro i hi
  unfold ivfCandidates at *
  rcases mem_catLists.mp hi with ⟨l, hl, hil⟩
  rcases List.mem_map.mp hl with ⟨c, hc, rfl⟩
  exact mem_catLists.mpr ⟨_, List.mem_map.mpr
    ⟨c, take_subset_take (clampProbe_mono s.centroids.length p) hc, rfl⟩, hil⟩

/-- C4: on a built IVF index, the candidate ID set scanned with
`n_probe = p + 1` is a superset of the set scanned with `n_probe = p`, and
consequently `result.distances[0]` is non-increasing as `n_probe` increases. -/
theorem ivf_nprobe_monotone_c4 (db : DB) (cfg : IVFConfig) (s : IVFStruct)
    (q : Vec) (k p : ℕ) (r₁ r₂ : SearchResult)
    (hact : db.active = .ivf cfg (some s))
    (h₁ : search db q k (some (.ivfP (some p))) = .ok r₁)
    (h₂ : search db q k (some (.ivfP (some (p + 1)))) = .ok r₂)
    (hne : r₁.distances ≠ []) :
    ivfCandidates s q p ⊆ ivfCandidates s q (p + 1) ∧
    r₂.distances ≠ [] ∧ r₂.distances.headI ≤ r₁.distances.headI := by
  simp only [search, hact, ivfSearch, Option.getD, Except.ok.injEq] at h₁ h₂
  have hsub := ivfCandidates_mono s q p
  subst h₁
  subst h₂
  exact ⟨hsub, rerank_mono db q k hsub hne⟩

/-- Witness for C4 at the concrete two-cluster IVF database. -/
theorem ivf_nprobe_monotone_c4_witness :
    ∃ r₁ r₂, search smallIvfDB [0] 2 (some (.ivfP (some 1))) = .ok r₁ ∧
      search smallIvfDB [0] 2 (some (.ivfP (some 2))) = .ok r₂ ∧
      ivfCandidates ⟨[[0], [10]], [[0], [1]]⟩ [0] 1 ⊆
        ivfCandidates ⟨[[0], [10]], [[0], [1]]⟩ [0] 2 ∧
      r₂.distances ≠ [] ∧ r₂.distances.headI ≤ r₁.distances.headI := by
  have h₁ : search smallIvfDB [0] 2 (some (.ivfP (some 1))) = .ok ⟨[0], [0]⟩ := by
    norm_num [search, smallIvfDB, ivfSearch, ivfCandidates, centroidOrder, clampProbe,
      catLists, rerank, rankPairs, rowOf, sqdist, PairLE, List.dedup,
      List.insertionSort, List.range]
  have h₂ : search smallIvfDB [0] 2 (some (.ivfP (some 2))) = .ok ⟨[0, 1], [0, 100]⟩ := by
    norm_num [search, smallIvfDB, ivfSearch, ivfCandidates, centroidOrder, clampProbe,
      catLists, rerank, rankPairs, rowOf, sqdist, PairLE, List.dedup,
      List.insertionSort, List.range]
  obtain ⟨ha, hb, hc⟩ := ivf_nprobe_monotone_c4 smallIvfDB ⟨2, 5, 1⟩
    ⟨[[0], [10]], [[0], [1]]⟩ [0] 2 1 ⟨[0], [0]⟩ ⟨[0, 1], [0, 100]⟩ rfl h₁ h₂ (by simp)
  exact ⟨_, _, h₁, h₂, ha, hb, hc⟩

lemma pqCandidates_mono (ts : List AnnoyTree) (q : Vec) {sk₁ sk₂ : ℕ}
    (h : sk₁ ≤ sk₂) : pqCandidates ts q sk₁ ⊆ pqCandidates ts q sk₂ :=
  take_subset_take h

/-- C5: on a built Annoy index searched with the priority-queue strategy, a
larger `search_k` candidate budget scans a superset of candidates and yields
`result.distances[0]` non-increasing. -/
theorem annoy_searchk_monotone_c5 (db : DB) (cfg : AnnoyConfig)
    (ts : List AnnoyTree) (q : Vec) (k sk₁ sk₂ : ℕ) (r₁ r₂ : SearchResult)
    (hact : db.active = .annoy cfg (some ts))
    (hsk : sk₁ ≤ sk₂)
    (h₁ : search db q k (some (.annoyP (some sk₁) (some true))) = .ok r₁)
    (h₂ : search db q k (some (.annoyP (some sk₂) (some true))) = .ok r₂)
    (hne : r₁.distances ≠ []) :
    pqCandidates ts q sk₁ ⊆ pqCandidates ts q sk₂ ∧
    r₂.distances ≠ [] ∧ r₂.distances.headI ≤ r₁.distances.headI := by
  simp only [search, hact, annoySearch, Option.getD, if_true, Except.ok.injEq] at h₁ h₂
  have hsub := pqCandidates_mono ts q hsk
  subst h₁
  subst h₂
  exact ⟨hsub, rerank_mono db q k hsub hne⟩

/-- Concrete built Annoy database: one tree whose single leaf holds both IDs,
priority-queue strategy enabled. -/
def smallAnnoyDB : DB :=
  ⟨1, [[0], [10]], .annoy ⟨1, 2, true⟩ (some [.leaf [0, 1]])⟩

/-- Witness for C5 at the concrete Annoy database. -/
theorem annoy_searchk_monotone_c5_witness :
    ∃ r₁ r₂, search smallAnnoyDB [0] 2 (some (.annoyP (some 1) (some true))) = .ok r₁ ∧
      search smallAnnoyDB [0] 2 (some (.annoyP (some 2) (some true))) = .ok r₂ ∧
      pqCandidates [.leaf [0, 1]] [0] 1 ⊆ pqCandidates [.leaf [0, 1]] [0] 2 ∧
      r₂.distances ≠ [] ∧ r₂.distances.headI ≤ r₁.distances.headI := by
  have h₁ : search smallAnnoyDB [0] 2 (some (.annoyP (some 1) (some true)))
      = .ok ⟨[0], [0]⟩ := by
    norm_num [search, smallAnnoyDB, annoySearch, pqCandidates, expandOrder,
      forestSize, treeSize, pqLoop, popMinEntry, catLists, rerank, rankPairs,
      rowOf, sqdist, PairLE, List.dedup, List.insertionSort]
  have h₂ : search smallAnnoyDB [0] 2 (some (.annoyP (some 2) (some true)))
      = .ok ⟨[0, 1], [0, 100]⟩ := by
    norm_num [search, smallAnnoyDB, annoySearch, pqCandidates, expandOrder,
      forestSize, treeSize, pqLoop, popMinEntry, catLists, rerank, rankPairs,
      rowOf, sqdist, PairLE, List.dedup, List.insertionSort]
  obtain ⟨ha, hb, hc⟩ := annoy_searchk_monotone_c5 smallAnnoyDB ⟨1, 2, true⟩
    [.leaf [0, 1]] [0] 2 1 2 ⟨[0], [0]⟩ ⟨[0, 1], [0, 100]⟩ rfl (by omega) h₁ h₂ (by simp)
  exact ⟨_, _, h₁, h₂, ha, hb, hc⟩

lemma rdVec_roundtrip (v : Vec) (rest : List Tok) :
    rdVec v.length (serVec v ++ rest) = some (v, rest) := by
  induction v generalizing rest with
  | nil => rfl
  | cons x xs ih =>
    show rdVec (xs.length + 1) (Tok.f32 x :: (serVec xs ++ rest)) = _
    simp only [rdVec, rdF32, ih]

lemma rdRows_roundtrip (rows : List Vec) (d : ℕ) (rest : List Tok)
    (h : ∀ r ∈ rows, r.length = d) :
    rdRows rows.length d (serRows rows ++ rest) = some (rows, rest) := by
  induction rows generalizing rest with
  | nil => rfl
  | cons v vs ih =>
    have hv : v.length = d := h v (List.mem_cons_self _ _)
    have hvec : rdVec d (serVec v ++ (serRows vs ++ rest)) = some (v, serRows vs ++ rest) := by
      rw [← hv]; exact rdVec_roundtrip v _
    have ih' := ih rest (fun r hr => h r (List.mem_cons_of_mem _ hr))
    show rdRows (vs.length + 1) d ((serVec v ++ serRows vs) ++ rest) = _
    rw [List.append_assoc]
    simp only [rdRows, hvec, ih']

lemma rdNats_roundtrip (l : List ℕ) (rest : List Tok) (h : ∀ i ∈ l, i < 2 ^ 32) :
    rdNats l.length (l.map w32 ++ rest) = some (l, rest) := by
  induction l generalizing rest with
  | nil => rfl
  | cons i is ih =>
    have hi : i % 2 ^ 32 = i := Nat.mod_eq_of_lt (h i (List.mem_cons_self _ _))
    have ih' := ih rest (fun j hj => h j (List.mem_cons_of_mem _ hj))
    show rdNats (is.length + 1) (Tok.u32 (i % 2 ^ 32) :: (is.map w32 ++ rest)) = _
    simp only [rdNats, rdU32, hi, ih']

lemma rdIds_roundtrip (l : List ℕ) (rest : List Tok)
    (hlen : l.length < 2 ^ 32) (h : ∀ i ∈ l, i < 2 ^ 32) :
    rdIds (serIds l ++ rest) = some (l, rest) := by
  have hl : l.length % 2 ^ 32 = l.length := Nat.mod_eq_of_lt hlen
  show rdIds (Tok.u32 (l.length % 2 ^ 32) :: (l.map w32 ++ rest)) = _
  simp only [rdIds, rdU32, hl, rdNats_roundtrip l rest h]

lemma rdLists_roundtrip (ls : List (List ℕ)) (rest : List Tok)
    (h : ∀ l ∈ ls, l.length < 2 ^ 32 ∧ ∀ i ∈ l, i < 2 ^ 32) :
    rdLists ls.length (serLists ls ++ rest) = some (ls, rest) := by
  induction ls generalizing rest with
  | nil => rfl
  | cons l lr ih =>
    obtain ⟨h1, h2⟩ := h l (List.mem_cons_self _ _)
    have ih' := ih rest (fun x hx => h x (List.mem_cons_of_mem _ hx))
    show rdLists (lr.length + 1) ((serIds l ++ serLists lr) ++ rest) = _
    rw [List.append_assoc]
    simp only [rdLists, rdIds_roundtrip l _ h1 h2, ih']

lemma treeSize_le_serTree (t : AnnoyTree) : treeSize t ≤ (serTree t).length := by
  induction t with
  | leaf ids =>
    simp only [treeSize, serTree, serIds, List.length_cons]
    omega
  | inner nr off l r ihl ihr =>
    simp only [treeSize, serTree, List.length_cons, List.length_append]
    omega

lemma rdTree_roundtrip (d : ℕ) (t : AnnoyTree) :
    ∀ (fuel : ℕ) (rest : List Tok), treeWF d t → treeSize t ≤ fuel →
    rdTree d fuel (serTree t ++ rest) = some (t, rest) := by
  induction t with
  | leaf ids =>
    intro fuel rest hwf hfuel
    obtain ⟨h1, h2⟩ := hwf
    rcases fuel with _ | f
    · exact absurd hfuel (by simp [treeSize])
    · show rdTree d (f + 1) (Tok.u8 0 :: (serIds ids ++ rest)) = _
      simp only [rdTree, rdU8, rdIds_roundtrip ids rest h1 h2]
  | inner nr off l r ihl ihr =>
    intro fuel rest hwf hfuel
    obtain ⟨hn, hwl, hwr⟩ := hwf
    rcases fuel with _ | f
    · exact absurd hfuel (by simp [treeSize])
    · have hfl : treeSize l ≤ f := by
        simp only [treeSize] at hfuel; omega
      have hfr : treeSize r ≤ f := by
        simp only [treeSize] at hfuel; omega
      have hvec : rdVec d (serVec nr ++ (Tok.f32 off :: (serTree l ++ (serTree r ++ rest))))
          = some (nr, Tok.f32 off :: (serTree l ++ (serTree r ++ rest))) := by
        rw [← hn]; exact rdVec_roundtrip nr _
      have hser : serTree (AnnoyTree.inner nr off l r) ++ rest =
          Tok.u8 1 :: (serVec nr ++ (Tok.f32 off :: (serTree l ++ (serTree r ++ rest)))) := by
        simp [serTree, List.append_assoc]
      rw [hser]
      simp only [rdTree, rdU8, hvec, rdF32, ihl f _ hwl hfl, ihr f rest hwr hfr]

lemma rdTrees_roundtrip (d : ℕ) (ts : List AnnoyTree) (rest : List Tok)
    (h : ∀ t ∈ ts, treeWF d t) :
    rdTrees d ts.length (serTrees ts ++ rest) = some (ts, rest) := by
  induction ts generalizing rest with
  | nil => rfl
  | cons t tr ih =>
    show rdTrees d (tr.length + 1) ((serTree t ++ serTrees tr) ++ rest) = _
    rw [List.append_assoc]
    have hfuel : treeSize t ≤ (serTree t ++ (serTrees tr ++ rest)).length := by
      rw [List.length_append]
      have := treeSize_le_serTree t
      omega
    simp only [rdTrees, rdTree_roundtrip d t _ _ (h t (List.mem_cons_self _ _)) hfuel,
      ih rest (fun x hx => h x (List.mem_cons_of_mem _ hx))]

lemma upqByte_eq (b : Bool) : ((if b then (1 : ℕ) else 0) == 1) = b := by
  cases b <;> rfl

lemma rdBody_serBody (d : ℕ) (act : ActiveIndex) (hbody : bodyWF d act)
    (hbuilt : builtActive act) :
    rdBody d (kindOf act) (serBody act) = some (act, []) := by
  cases act with
  | noneIdx => exact absurd hbuilt (fun h => h)
  | flat => rfl
  | ivf cfg os =>
    cases os with
    | none => exact absurd hbuilt (fun h => h)
    | some s =>
      obtain ⟨hnc, hmi, hnp, hclen, hllen, hcd, hl⟩ := hbody
      have h1 : rdRows cfg.n_clusters d (serRows s.centroids ++ serLists s.lists)
          = some (s.centroids, serLists s.lists) := by
        rw [← hclen]
        exact rdRows_roundtrip s.centroids d _ hcd
      have h2 : rdLists cfg.n_clusters (serLists s.lists) = some (s.lists, []) := by
        rw [← hllen]
        have h3 := rdLists_roundtrip s.lists [] hl
        rwa [List.append_nil] at h3
      show rdBody d 1 (Tok.u32 (cfg.n_clusters % 2 ^ 32) ::
        Tok.u32 (cfg.max_iters % 2 ^ 32) :: Tok.u32 (cfg.n_probe % 2 ^ 32) ::
        (serRows s.centroids ++ serLists s.lists)) = _
      simp only [rdBody, rdU32, Nat.mod_eq_of_lt hnc, Nat.mod_eq_of_lt hmi,
        Nat.mod_eq_of_lt hnp, h1, h2]
  | annoy cfg os =>
    cases os with
    | none => exact absurd hbuilt (fun h => h)
    | some ts =>
      obtain ⟨hnt, hkl, htlen, htw⟩ := hbody
      have h1 : rdTrees d cfg.num_trees (serTrees ts) = some (ts, []) := by
        rw [← htlen]
        have h3 := rdTrees_roundtrip d ts [] htw
        rwa [List.append_nil] at h3
      show rdBody d 2 (Tok.u32 (cfg.num_trees % 2 ^ 32) ::
        Tok.u32 (cfg.k_leaf % 2 ^ 32) ::
        Tok.u8 (if cfg.use_priority_queue then 1 else 0) :: serTrees ts) = _
      simp only [rdBody, rdU32, rdU8, Nat.mod_eq_of_lt hnt, Nat.mod_eq_of_lt hkl,
        h1, upqByte_eq]

lemma loadAux_save (db : DB) (hser : serialWF db) (hbuilt : builtActive db.active) :
    loadAux (save db) = some db := by
  obtain ⟨dim, store, act⟩ := db
  obtain ⟨hdim, hcount, hrows, hbody⟩ := hser
  have hd : dim % 2 ^ 32 = dim := Nat.mod_eq_of_lt hdim
  have hc : store.length % 2 ^ 64 = store.length := Nat.mod_eq_of_lt hcount
  have hb : rdBody dim (kindOf act) (serBody act) = some (act, []) :=
    rdBody_serBody dim act hbody hbuilt
  have hrr : rdRows store.length dim
      (serRows store ++ (Tok.u8 (kindOf act) :: serBody act))
      = some (store, Tok.u8 (kindOf act) :: serBody act) :=
    rdRows_roundtrip store dim _ hrows
  show loadAux (Tok.magic :: Tok.u32 1 :: Tok.u32 (dim % 2 ^ 32) ::
    Tok.u64 (store.length % 2 ^ 64) ::
    (serRows store ++ (Tok.u8 (kindOf act) :: serBody act))) = _
  simp only [loadAux, rdU32, rdU64, hd, hc, hrr, rdU8, hb]
  simp

/-- C6: for every database with Flat, IVF or Annoy active and built,
`save(f)` followed by `load(f)` yields a database that answers every query
with identical `ids` and `distances`, and a second save of the loaded
instance produces a byte-equal file. -/
theorem save_load_roundtrip_c6 (db : DB) (hser : serialWF db)
    (hbuilt : builtActive db.active) :
    ∃ db', load (save db) = .ok db' ∧
      (∀ q k params, search db' q k params = search db q k params) ∧
      save db' = save db := by
  have h := loadAux_save db hser hbuilt
  refine ⟨db, ?_, fun _ _ _ => rfl, rfl⟩
  simp only [load, h]

/-- Witness for C6 at the concrete built IVF database. -/
theorem save_load_roundtrip_c6_witness :
    ∃ db', load (save smallIvfDB) = .ok db' ∧
      (∀ q k params, search db' q k params = search smallIvfDB q k params) ∧
      save db' = save smallIvfDB :=
  save_load_roundtrip_c6 smallIvfDB (by decide) (by decide)
